import Mathlib

/-!
Verification of the image-access core of `image_process.cpp`.

Strings from the C++ side are modelled as `List Char`.  Machine integers
(`size_t`, `uint64_t`) are modelled as `Nat`; every subtraction performed by
the source is guarded there, so truncated `Nat` subtraction agrees with the
machine arithmetic on the guarded paths.  File contents are `List Nat`
(byte values).  C++ exceptions are modelled with `Option` / sum types.
-/

namespace ImageProcess

/-- Convert a Lean string literal to the `List Char` model. -/
def strL (s : String) : List Char := s.data

/-- `image_process::fn_ends_with`: does `str` end with `suffix`?
Source compares `str.substr(str.size()-suffix.size())==suffix` after a size
guard. -/
def fn_ends_with (str suffix : List Char) : Bool :=
  if suffix.length > str.length then false
  else decide (str.drop (str.length - suffix.length) = suffix)

/-- `image_process::is_multipart_file`. -/
def is_multipart_file (fn : List Char) : Bool :=
  fn_ends_with fn (strL ".000")
  || fn_ends_with fn (strL ".001")
  || fn_ends_with fn (strL "001.vmdk")

/-- Model of C `::tolower` on the characters that matter here (ASCII). -/
def tolowerCh (c : Char) : Char :=
  if 'A' ≤ c ∧ c ≤ 'Z' then Char.ofNat (c.toNat + 32) else c

/-- Lower-casing of a whole string, as done by `std::transform(..., ::tolower)`. -/
def tolowerL (s : List Char) : List Char := s.map tolowerCh

/-- The filename component of a path: everything after the last `/`. -/
def filenameOf (s : List Char) : List Char :=
  ((s.reverse).takeWhile (fun c => decide (c ≠ '/'))).reverse

/-- Model of `std::filesystem::path::extension()`: the suffix of the filename
from its last dot (dot included); empty when the filename is `.` or `..`,
has no dot, or its only dot is the leading character. -/
def extensionOf (s : List Char) : List Char :=
  let fn := filenameOf s
  if fn = ['.'] ∨ fn = ['.', '.'] then []
  else
    let t := (fn.reverse).takeWhile (fun c => decide (c ≠ '.'))
    if t.length = fn.length then []
    else if t.length + 1 = fn.length then []
    else '.' :: t.reverse

/-- Model of `std::string::find(pat) != npos`: does `s` contain `pat` as a
(contiguous) substring? -/
def containsSub (pat : List Char) : List Char → Bool
  | [] => decide (pat = ([] : List Char))
  | c :: rest => decide ((c :: rest).take pat.length = pat) || containsSub pat rest

/-! ### The segmented-raw backend: segment table -/

/-- `process_raw::file_info`: one segment of a (possibly split) raw image.
`offset` is its start in the logical address space, `length` its recorded
size; `data` models the bytes the underlying file actually holds. -/
structure file_info where
  path : List Char
  offset : Nat
  length : Nat
  data : List Nat
deriving DecidableEq

/-- The mutable state that `process_raw::open` builds up:
the segment table and the running total `raw_filesize`. -/
structure RawState where
  file_list : List file_info
  raw_filesize : Nat
deriving DecidableEq

/-- `process_raw::add_file`: append a segment starting at the current
`raw_filesize` and add its size to the total.  For a regular file the size
recorded is the file's size, i.e. the length of its contents. -/
def add_file (st : RawState) (path : List Char) (data : List Nat) : RawState :=
  { file_list := st.file_list ++ [⟨path, st.raw_filesize, data.length, data⟩],
    raw_filesize := st.raw_filesize + data.length }

/-- `process_raw::open`: add the primary file; when the name matches the
multipart convention, add each successively numbered sibling that exists.
`sibs` lists (path, contents) of the consecutive probes that exist, in probe
order; the loop in the source stops at the first missing probe, so it adds
exactly these. -/
def process_raw_open (fname : List Char) (primary : List Nat)
    (sibs : List (List Char × List Nat)) : RawState :=
  let st := add_file ⟨[], 0⟩ fname primary
  if is_multipart_file fname then
    sibs.foldl (fun s pd => add_file s pd.1 pd.2) st
  else st

/-- `process_raw::find_offset`: linear scan for the first segment whose
half-open range `[offset, offset+length)` contains `pos`; null (`none`)
otherwise. -/
def find_offset (fl : List file_info) (pos : Nat) : Option file_info :=
  fl.find? (fun fi => decide (fi.offset ≤ pos) && decide (pos < fi.offset + fi.length))

/-- One `seekg`/`read` against a segment's stream: succeeds (returning
exactly the requested bytes) when the file holds them, and otherwise models
the stream entering an error state, which the source turns into a thrown
exception. -/
def segment_read (fi : file_info) (file_offset bytes_to_read : Nat) :
    Option (List Nat) :=
  if file_offset + bytes_to_read ≤ fi.data.length then
    some ((fi.data.drop file_offset).take bytes_to_read)
  else none

/-- `process_raw::pread`: locate the owning segment, clamp the request to the
bytes available in it, read, and recurse for the remainder.  `none` models a
thrown `SeekError`/`ReadError`/`EndOfImage`; `some (n, bs)` models a return
value `n` with `bs` the bytes written into the buffer. -/
def pread (fl : List file_info) (bytes offset : Nat) :
    Option (Nat × List Nat) :=
  match find_offset fl offset with
  | none => some (0, [])
  | some fi =>
    let file_offset := offset - fi.offset
    let available_bytes := fi.length - file_offset
    let bytes_to_read := min bytes available_bytes
    match segment_read fi file_offset bytes_to_read with
    | none => none
    | some bs =>
      let bytes_read := bytes_to_read
      if h1 : bytes_read = bytes then some (bytes_read, bs)
      else if h0 : bytes_read = 0 then some (0, [])
      else
        match pread fl (bytes - bytes_read) (offset + bytes_read) with
        | none => none
        | some (n2, bs2) => some (bytes_read + n2, bs ++ bs2)
termination_by bytes
decreasing_by omega

/-- Fuel-indexed copy of `pread`, used to state that the recursion depth is
bounded by the requested byte count: the outer `none` means "out of fuel". -/
def preadFuel : Nat → List file_info → Nat → Nat → Option (Option (Nat × List Nat))
  | 0, _, _, _ => none
  | fuel + 1, fl, bytes, offset =>
    match find_offset fl offset with
    | none => some (some (0, []))
    | some fi =>
      let file_offset := offset - fi.offset
      let available_bytes := fi.length - file_offset
      let bytes_to_read := min bytes available_bytes
      match segment_read fi file_offset bytes_to_read with
      | none => some none
      | some bs =>
        let bytes_read := bytes_to_read
        if bytes_read = bytes then some (some (bytes_read, bs))
        else if bytes_read = 0 then some (some (0, []))
        else
          match preadFuel fuel fl (bytes - bytes_read) (offset + bytes_read) with
          | none => none
          | some none => some none
          | some (some (n2, bs2)) => some (some (bytes_read + n2, bs ++ bs2))

/-- Sum of the recorded segment lengths. -/
def totalSize (fl : List file_info) : Nat := (fl.map (fun fi => fi.length)).sum

/-- Well-formedness of a segment table starting at logical offset `start`:
segments are contiguous (each starts where the previous one ended) and each
file holds exactly its recorded number of bytes. -/
def segsFrom : Nat → List file_info → Bool
  | _, [] => true
  | start, fi :: rest =>
    decide (fi.offset = start) && decide (fi.data.length = fi.length)
      && segsFrom (start + fi.length) rest

/-- The segment-table invariant: contiguous segments covering
`[0, totalSize)`. -/
def segTableWF (fl : List file_info) : Bool := segsFrom 0 fl

/-- The logical contents of a split image: segment contents concatenated in
table order. -/
def logicalBytes (fl : List file_info) : List Nat :=
  (fl.map (fun fi => fi.data)).flatten

/-- The segment table that a well-formed construction starting at `start`
over the given (path, contents) list should produce: running start offsets
and recorded length = file size. -/
def buildSegs : Nat → List (List Char × List Nat) → List file_info
  | _, [] => []
  | start, pd :: rest =>
    ⟨pd.1, start, pd.2.length, pd.2⟩ :: buildSegs (start + pd.2.length) rest

/-! ### Page allocation and the cursor -/

/-- The `count` / `this_pagesize` computation at the head of
`process_raw::sbuf_alloc`: clamp `pagesize + margin` to the bytes remaining
and clamp the usable page length to `count`. -/
def process_raw_sbuf_sizes (pagesize margin raw_filesize it_offset : Nat) :
    Nat × Nat :=
  let count := pagesize + margin
  let count := if raw_filesize < it_offset + count then raw_filesize - it_offset else count
  let this_pagesize := if pagesize > count then count else pagesize
  (count, this_pagesize)

/-- The identical `count` / `this_pagesize` computation at the head of
`process_ewf::sbuf_alloc`. -/
def process_ewf_sbuf_sizes (pagesize margin ewf_filesize it_offset : Nat) :
    Nat × Nat :=
  let count := pagesize + margin
  let count := if ewf_filesize < it_offset + count then ewf_filesize - it_offset else count
  let this_pagesize := if pagesize > count then count else pagesize
  (count, this_pagesize)

/-- Outcome of `sbuf_alloc`: an end-of-image signal (exception, no page), a
read error (exception, no page), an I/O exception propagated from inside the
backend `pread`, or a page with its total and usable lengths. -/
inductive SbufOutcome where
  | endOfImage
  | readError
  | ioError
  | page (count usable : Nat)
deriving DecidableEq

/-- `process_raw::sbuf_alloc`, returning the outcome together with the
cursor's `eof` flag afterwards (the flag starts out false on an active
cursor).  In the source a negative return from `process_raw::pread` is also
checked, but that `pread` reports failures by throwing, so the model's
`ioError` covers it. -/
def process_raw_sbuf_alloc (pagesize margin : Nat) (fl : List file_info)
    (raw_filesize it_offset : Nat) : SbufOutcome × Bool :=
  let sizes := process_raw_sbuf_sizes pagesize margin raw_filesize it_offset
  match pread fl sizes.1 it_offset with
  | none => (.ioError, false)
  | some (count_read, _) =>
    if count_read = 0 then (.endOfImage, true)
    else (.page sizes.1 sizes.2, false)

/-- `process_ewf::sbuf_alloc`.  The decoder's random read is external
(libewf), so it is a parameter `ewfRead count offset` returning the
`int count_read`.  The source tests `count_read < 0` (read error) and then
`count == 0` (end of image, sets `eof`), otherwise returns the page. -/
def process_ewf_sbuf_alloc (pagesize margin : Nat) (ewf_filesize : Nat)
    (ewfRead : Nat → Nat → Int) (it_offset : Nat) : SbufOutcome × Bool :=
  let sizes := process_ewf_sbuf_sizes pagesize margin ewf_filesize it_offset
  let count_read := ewfRead sizes.1 it_offset
  if count_read < 0 then (.readError, false)
  else if sizes.1 = 0 then (.endOfImage, true)
  else (.page sizes.1 sizes.2, false)

/-- `image_process::iterator`, restricted to the byte-addressed fields. -/
structure ImgIterator where
  raw_offset : Nat
  eof : Bool
deriving DecidableEq

/-- `begin()` for the byte-addressed backends: offset 0, not at end. -/
def iterBegin : ImgIterator := ⟨0, false⟩

/-- `process_raw::increment_iterator`: add `pagesize`, clamp to
`raw_filesize`. -/
def process_raw_increment_iterator (pagesize raw_filesize : Nat)
    (it : ImgIterator) : ImgIterator :=
  let o := it.raw_offset + pagesize
  ⟨if o > raw_filesize then raw_filesize else o, it.eof⟩

/-- `process_ewf::increment_iterator`: textually the same computation with
`ewf_filesize`. -/
def process_ewf_increment_iterator (pagesize ewf_filesize : Nat)
    (it : ImgIterator) : ImgIterator :=
  let o := it.raw_offset + pagesize
  ⟨if o > ewf_filesize then ewf_filesize else o, it.eof⟩

/-- Modelled from the spec: one step of the cursor state machine of §4.5.
The offset update is `process_raw::increment_iterator`; the AT-END
transition (`eof` set when the offset reaches `total_size`) is modelled from
the spec because the loop that drives the `eof` flag (via `sbuf_alloc`'s
end-of-image signal) lives outside the excerpted sources. -/
def cursor_step (pagesize total : Nat) (it : ImgIterator) : ImgIterator :=
  let it2 := process_raw_increment_iterator pagesize total it
  ⟨it2.raw_offset, it2.eof || decide (it2.raw_offset = total)⟩

/-- The cursor after `k` increments from `begin()`. -/
def iterCursor (pagesize total : Nat) : Nat → ImgIterator
  | 0 => iterBegin
  | k + 1 => cursor_step pagesize total (iterCursor pagesize total k)

/-- `process_raw::seek_block`: clamp the block number when it would start
past the image, set the offset to `block * pagesize`, return the block
actually used.  Result: (returned block, new `raw_offset`). -/
def process_raw_seek_block (pagesize raw_filesize block : Nat) : Nat × Nat :=
  let block := if block * pagesize > raw_filesize then raw_filesize / pagesize else block
  (block, block * pagesize)

/-- `process_ewf::seek_block`: no clamping at all.  Result:
(returned block, new `raw_offset`). -/
def process_ewf_seek_block (pagesize block : Nat) : Nat × Nat :=
  (block, pagesize * block)

/-! ### The factory `image_process::open` -/

/-- Which concrete backend the factory built. -/
inductive Backend where
  | dir
  | ewf
  | raw
deriving DecidableEq

/-- The exceptions `image_process::open` can throw during dispatch.
`FoundDiskImage` is the code's name for the spec's
`FoundUnexpectedImageFile`. -/
inductive OpenErr where
  | NoSuchFile
  | IsADirectory
  | FoundDiskImage
  | NoSupport
deriving DecidableEq

/-- `image_process::open` dispatch.  `fnExists` / `isDir` model the
filesystem tests on `fn`; `children` are the names of the directory's
immediate entries (used only in the directory branch); `have_libewf` models
the `HAVE_LIBEWF` build flag.  The final `ip->open()` call is not modelled:
every backend's `open` returns 0 on the paths reached here. -/
def image_process_open (fn : List Char) (fnExists isDir : Bool)
    (children : List (List Char)) (opt_recurse : Bool) (have_libewf : Bool) :
    Except OpenErr Backend :=
  if fnExists = false then .error .NoSuchFile
  else if isDir then
    if opt_recurse = false then .error .IsADirectory
    else if children.any (fun p =>
        decide (extensionOf p = strL ".E01") || decide (extensionOf p = strL ".000")
          || decide (extensionOf p = strL ".001")) then
      .error .FoundDiskImage
    else .ok .dir
  else
    let ext := tolowerL (extensionOf fn)
    if decide (ext = strL "e01") || containsSub (strL ".E01") fn then
      if have_libewf then .ok .ewf else .error .NoSupport
    else .ok .raw

/-! ### Concrete split image used by the witnesses: two 100-byte segments -/

/-- Segment `[0,100)`, all bytes `0xAA`. -/
def demoSeg0 : file_info := ⟨strL "img.000", 0, 100, List.replicate 100 0xAA⟩

/-- Segment `[100,200)`, all bytes `0xBB`. -/
def demoSeg1 : file_info := ⟨strL "img.001", 100, 100, List.replicate 100 0xBB⟩

/-- The two-segment demo table. -/
def demoFL : List file_info := [demoSeg0, demoSeg1]

/-- Primary filename for the multipart-open witness. -/
def demoOpenFname : List Char := strL "img.000"

/-- Contents of the primary file for the multipart-open witness. -/
def demoOpenPrimary : List Nat := [1, 1, 1]

/-- The consecutive existing siblings for the multipart-open witness. -/
def demoOpenSibs : List (List Char × List Nat) := [(strL "img.001", [2, 2])]

/-- A well-behaved decoder read for the end-of-image witness: returns the
requested count. -/
def demoEwfRead : Nat → Nat → Int := fun count _ => Int.ofNat count

/-! ### Segment-table lemmas -/

theorem totalSize_cons (fi : file_info) (rest : List file_info) :
    totalSize (fi :: rest) = fi.length + totalSize rest := by
  simp [totalSize]

theorem segsFrom_cons {s : Nat} {fi : file_info} {rest : List file_info} :
    segsFrom s (fi :: rest) = true ↔
      fi.offset = s ∧ fi.data.length = fi.length ∧ segsFrom (s + fi.length) rest = true := by
  simp [segsFrom, Bool.and_assoc]

theorem segsFrom_offset_le {s : Nat} {fl : List file_info}
    (h : segsFrom s fl = true) {fi : file_info} (hm : fi ∈ fl) : s ≤ fi.offset := by
  induction fl generalizing s with
  | nil => cases hm
  | cons a rest ih =>
    rcases segsFrom_cons.mp h with ⟨ha, _, hrest⟩
    rcases List.mem_cons.mp hm with hm | hm
    · rw [hm]; omega
    · have := ih hrest hm
      omega

theorem segsFrom_data_length {s : Nat} {fl : List file_info}
    (h : segsFrom s fl = true) {fi : file_info} (hm : fi ∈ fl) :
    fi.data.length = fi.length := by
  induction fl generalizing s with
  | nil => cases hm
  | cons a rest ih =>
    rcases segsFrom_cons.mp h with ⟨_, hd, hrest⟩
    rcases List.mem_cons.mp hm with hm | hm
    · rw [hm]; exact hd
    · exact ih hrest hm

theorem find_offset_cons (fi : file_info) (rest : List file_info) (pos : Nat) :
    find_offset (fi :: rest) pos =
      if fi.offset ≤ pos ∧ pos < fi.offset + fi.length then some fi
      else find_offset rest pos := by
  by_cases h : fi.offset ≤ pos ∧ pos < fi.offset + fi.length
  · simp [find_offset, List.find?_cons_of_pos, h.1, h.2]
  · rw [if_neg h]
    have hb : (decide (fi.offset ≤ pos) && decide (pos < fi.offset + fi.length)) = false := by
      rcases Decidable.not_and_iff_or_not.mp h with h1 | h1 <;> simp [h1]
    simp [find_offset, List.find?_cons_of_neg, hb]

theorem find_offset_some {s : Nat} {fl : List file_info} (o : Nat)
    (h : segsFrom s fl = true) (h1 : s ≤ o) (h2 : o < s + totalSize fl) :
    ∃ fi, find_offset fl o = some fi ∧ fi ∈ fl ∧ fi.offset ≤ o ∧ o < fi.offset + fi.length := by
  induction fl generalizing s with
  | nil => simp [totalSize] at h2; omega
  | cons a rest ih =>
    rcases segsFrom_cons.mp h with ⟨ha, _, hrest⟩
    rw [totalSize_cons] at h2
    by_cases hin : o < s + a.length
    · refine ⟨a, ?_, List.mem_cons_self a rest, by omega, by omega⟩
      rw [find_offset_cons, if_pos (by omega)]
    · rcases ih hrest (by omega) (by omega) with ⟨fi, hfind, hmem, hle, hlt⟩
      refine ⟨fi, ?_, List.mem_cons_of_mem a hmem, hle, hlt⟩
      rw [find_offset_cons, if_neg (by omega), hfind]

theorem find_offset_none {s : Nat} {fl : List file_info} (o : Nat)
    (h : segsFrom s fl = true) (h2 : s + totalSize fl ≤ o) :
    find_offset fl o = none := by
  induction fl generalizing s with
  | nil => simp [find_offset]
  | cons a rest ih =>
    rcases segsFrom_cons.mp h with ⟨ha, _, hrest⟩
    rw [totalSize_cons] at h2
    rw [find_offset_cons, if_neg (by omega)]
    exact ih hrest (by omega)

theorem seg_unique {s : Nat} {fl : List file_info} (h : segsFrom s fl = true)
    {fi fi' : file_info} {o : Nat} (hm : fi ∈ fl) (hm' : fi' ∈ fl)
    (hc1 : fi.offset ≤ o) (hc2 : o < fi.offset + fi.length)
    (hc1' : fi'.offset ≤ o) (hc2' : o < fi'.offset + fi'.length) : fi = fi' := by
  induction fl generalizing s with
  | nil => cases hm
  | cons a rest ih =>
    rcases segsFrom_cons.mp h with ⟨ha, _, hrest⟩
    rcases List.mem_cons.mp hm with hm | hm <;> rcases List.mem_cons.mp hm' with hm' | hm'
    · rw [hm, hm']
    · rw [hm] at hc1 hc2
      have h1 := segsFrom_offset_le hrest hm'
      omega
    · rw [hm'] at hc1' hc2'
      have h1 := segsFrom_offset_le hrest hm
      omega
    · exact ih hrest hm hm'

theorem logicalBytes_cons (a : file_info) (rest : List file_info) :
    logicalBytes (a :: rest) = a.data ++ logicalBytes rest := by
  simp [logicalBytes]

theorem seg_data_slice {s : Nat} {fl : List file_info} (h : segsFrom s fl = true)
    {fi : file_info} (hm : fi ∈ fl) :
    fi.data = ((logicalBytes fl).drop (fi.offset - s)).take fi.length := by
  induction fl generalizing s with
  | nil => cases hm
  | cons a rest ih =>
    rcases segsFrom_cons.mp h with ⟨ha, hd, hrest⟩
    rcases List.mem_cons.mp hm with hm | hm
    · rw [hm, logicalBytes_cons, ha, Nat.sub_self, List.drop_zero, ← hd, List.take_left]
    · have hle := segsFrom_offset_le hrest hm
      have heq : fi.offset - s = a.data.length + (fi.offset - (s + a.length)) := by
        rw [hd]; omega
      rw [logicalBytes_cons, heq, List.drop_append]
      exact ih hrest hm

theorem pread_correct {fl : List file_info} (hWF : segTableWF fl = true) :
    ∀ b o, o + b ≤ totalSize fl →
      pread fl b o = some (b, ((logicalBytes fl).drop o).take b) := by
  intro b
  induction b using Nat.strong_induction_on with
  | _ b ih =>
    intro o hob
    by_cases ho : o < totalSize fl
    · obtain ⟨fi, hfind, hmem, hle, hlt⟩ :=
        find_offset_some o hWF (Nat.zero_le o) (by omega)
      have hdlen : fi.data.length = fi.length := segsFrom_data_length hWF hmem
      have hslice : fi.data = ((logicalBytes fl).drop (fi.offset - 0)).take fi.length :=
        seg_data_slice hWF hmem
      rw [Nat.sub_zero] at hslice
      rw [pread, hfind]
      dsimp only
      have hread : segment_read fi (o - fi.offset)
          (min b (fi.length - (o - fi.offset))) =
          some ((fi.data.drop (o - fi.offset)).take
            (min b (fi.length - (o - fi.offset)))) := by
        rw [segment_read, if_pos (by omega)]
      rw [hread]
      dsimp only
      have hdrop : fi.data.drop (o - fi.offset) =
          ((logicalBytes fl).drop o).take (fi.length - (o - fi.offset)) := by
        rw [hslice, List.drop_take]
        congr 1
        rw [List.drop_drop]
        congr 1
        omega
      have hbs : (fi.data.drop (o - fi.offset)).take
            (min b (fi.length - (o - fi.offset))) =
          ((logicalBytes fl).drop o).take (min b (fi.length - (o - fi.offset))) := by
        rw [hdrop, List.take_take]
        congr 1
        omega
      by_cases hbb : min b (fi.length - (o - fi.offset)) = b
      · rw [dif_pos hbb, hbs, hbb]
      · have hb0 : ¬ (min b (fi.length - (o - fi.offset)) = 0) := by omega
        rw [dif_neg hbb, dif_neg hb0]
        have hrec := ih (b - min b (fi.length - (o - fi.offset))) (by omega)
          (o + min b (fi.length - (o - fi.offset))) (by omega)
        rw [hrec]
        dsimp only
        rw [hbs]
        have hsplit : ((logicalBytes fl).drop o).take (min b (fi.length - (o - fi.offset)))
            ++ ((logicalBytes fl).drop
                (o + min b (fi.length - (o - fi.offset)))).take
                (b - min b (fi.length - (o - fi.offset)))
            = ((logicalBytes fl).drop o).take b := by
          have hdd : (logicalBytes fl).drop (o + min b (fi.length - (o - fi.offset))) =
              ((logicalBytes fl).drop o).drop (min b (fi.length - (o - fi.offset))) := by
            rw [List.drop_drop]
          rw [hdd, ← List.take_add]
          congr 1
          omega
        rw [hsplit]
        congr 2
        omega
    · have hb0 : b = 0 := by omega
      have hfn : find_offset fl o = none := find_offset_none o hWF (by omega)
      subst hb0
      rw [pread, hfn]
      simp

theorem preadFuel_ge {fl : List file_info} :
    ∀ fuel b o, b < fuel → preadFuel fuel fl b o = some (pread fl b o) := by
  intro fuel
  induction fuel with
  | zero => intro b o h; omega
  | succ fuel ihf =>
    intro b o _
    rw [preadFuel, pread]
    cases hf : find_offset fl o with
    | none => rfl
    | some fi =>
      dsimp only
      cases hs : segment_read fi (o - fi.offset) (min b (fi.length - (o - fi.offset))) with
      | none => rfl
      | some bs =>
        dsimp only
        by_cases hbb : min b (fi.length - (o - fi.offset)) = b
        · rw [if_pos hbb, dif_pos hbb]
        · rw [if_neg hbb, dif_neg hbb]
          by_cases hb0 : min b (fi.length - (o - fi.offset)) = 0
          · rw [if_pos hb0, dif_pos hb0]
          · rw [if_neg hb0, dif_neg hb0]
            rw [ihf (b - min b (fi.length - (o - fi.offset)))
              (o + min b (fi.length - (o - fi.offset))) (by omega)]
            cases pread fl (b - min b (fi.length - (o - fi.offset)))
                (o + min b (fi.length - (o - fi.offset))) with
            | none => rfl
            | some r => rfl

/-! ### Claim theorems -/

/-- C1: for a well-formed split image and a read of `b > 0` bytes at offset
`o` with `o + b ≤ total_size` that straddles a segment boundary (the owning
segment of `o` ends strictly before `o + b`), `process_raw::pread` returns
exactly `b` and fills the buffer with the bytes of each segment in
logical-offset order (the clamped first-segment read followed by the
recursive remainder, counts summed). -/
theorem pread_spans_boundary (fl : List file_info) (b o : Nat)
    (hWF : segTableWF fl = true) (hb : 0 < b) (hle : o + b ≤ totalSize fl)
    (hstraddle : ∃ fi, find_offset fl o = some fi ∧ fi.offset + fi.length < o + b) :
    pread fl b o = some (b, ((logicalBytes fl).drop o).take b) :=
  pread_correct hWF b o hle

/-- Witness for C1: segments `[0,100)` all `0xAA` and `[100,200)` all
`0xBB`; a 20-byte read at offset 95 returns 20 bytes: five `0xAA` then
fifteen `0xBB`. -/
theorem pread_spans_boundary_w :
    pread demoFL 20 95 = some (20, List.replicate 5 0xAA ++ List.replicate 15 0xBB) := by
  have h := pread_spans_boundary demoFL 20 95 (by decide) (by decide) (by decide)
    ⟨demoSeg0, by decide, by decide⟩
  rw [h]
  decide

/-- C2: under the segment-table invariant, `find_offset o` for
`0 ≤ o < total_size` returns a segment whose half-open range contains `o`,
that segment is the unique one in the table doing so, and for
`o ≥ total_size` it returns the null (not-found) signal. -/
theorem find_offset_locate (fl : List file_info) (o : Nat)
    (hWF : segTableWF fl = true) :
    (o < totalSize fl → ∃ fi, find_offset fl o = some fi ∧ fi ∈ fl
      ∧ fi.offset ≤ o ∧ o < fi.offset + fi.length
      ∧ ∀ fi' ∈ fl, fi'.offset ≤ o → o < fi'.offset + fi'.length → fi' = fi)
    ∧ (totalSize fl ≤ o → find_offset fl o = none) := by
  constructor
  · intro ho
    obtain ⟨fi, hfind, hmem, h1, h2⟩ :=
      find_offset_some o hWF (Nat.zero_le o) (by omega)
    exact ⟨fi, hfind, hmem, h1, h2,
      fun fi' hm' ha hb => seg_unique hWF hm' hmem ha hb h1 h2⟩
  · intro ho
    exact find_offset_none o hWF (by omega)

/-- Witness for C2 on the demo table: offset 150 is located in the second
segment (uniquely), and offset 200 = total size is not found. -/
theorem find_offset_locate_w :
    (∃ fi, find_offset demoFL 150 = some fi ∧ fi ∈ demoFL
      ∧ fi.offset ≤ 150 ∧ 150 < fi.offset + fi.length
      ∧ ∀ fi' ∈ demoFL, fi'.offset ≤ 150 → 150 < fi'.offset + fi'.length → fi' = fi)
    ∧ find_offset demoFL 200 = none :=
  ⟨(find_offset_locate demoFL 150 (by decide)).1 (by decide),
   (find_offset_locate demoFL 200 (by decide)).2 (by decide)⟩

/-- C9: `process_raw::pread` terminates on every input: its recursion depth
is bounded by the requested byte count (each recursive call strictly
decreases the remaining bytes), as witnessed by the fuel-indexed copy
agreeing at fuel `bytes + 1`; and an offset with no owning segment returns 0
immediately rather than recursing. -/
theorem pread_terminates (fl : List file_info) (b o : Nat) :
    preadFuel (b + 1) fl b o = some (pread fl b o)
    ∧ (find_offset fl o = none → pread fl b o = some (0, [])) :=
  ⟨preadFuel_ge (b + 1) b o (Nat.lt_succ_self b),
   fun h => by rw [pread, h]⟩

/-- Witness for C9: reading 5 bytes at offset 200 (past the demo image's
end, so no owning segment) returns 0, and the fuel-bounded run agrees. -/
theorem pread_terminates_w :
    preadFuel 6 demoFL 5 200 = some (pread demoFL 5 200)
    ∧ pread demoFL 5 200 = some (0, []) :=
  ⟨(pread_terminates demoFL 5 200).1,
   (pread_terminates demoFL 5 200).2 (by decide)⟩

/-! ### Construction lemmas for C3 -/

theorem foldl_add_file (ds : List (List Char × List Nat)) :
    ∀ st : RawState,
      (ds.foldl (fun s pd => add_file s pd.1 pd.2) st).file_list
          = st.file_list ++ buildSegs st.raw_filesize ds
        ∧ (ds.foldl (fun s pd => add_file s pd.1 pd.2) st).raw_filesize
          = st.raw_filesize + (ds.map (fun pd => pd.2.length)).sum := by
  induction ds with
  | nil => intro st; simp [buildSegs]
  | cons d rest ih =>
    intro st
    rw [List.foldl_cons]
    obtain ⟨h1, h2⟩ := ih (add_file st d.1 d.2)
    constructor
    · rw [h1]
      simp [add_file, buildSegs]
    · rw [h2]
      simp only [add_file, List.map_cons, List.sum_cons]
      omega

theorem segsFrom_buildSegs :
    ∀ (s : Nat) (ds : List (List Char × List Nat)),
      segsFrom s (buildSegs s ds) = true := by
  intro s ds
  induction ds generalizing s with
  | nil => simp [buildSegs, segsFrom]
  | cons d rest ih => simp [buildSegs, segsFrom, ih]

theorem totalSize_buildSegs :
    ∀ (s : Nat) (ds : List (List Char × List Nat)),
      totalSize (buildSegs s ds) = (ds.map (fun pd => pd.2.length)).sum := by
  intro s ds
  induction ds generalizing s with
  | nil => simp [buildSegs, totalSize]
  | cons d rest ih => simp [buildSegs, totalSize_cons, ih]

theorem segsFrom_offsets_increasing {s : Nat} {fl : List file_info}
    (h : segsFrom s fl = true) (hpos : ∀ fi ∈ fl, fi.length ≠ 0) :
    (fl.map (fun fi => fi.offset)).Pairwise (· < ·) := by
  induction fl generalizing s with
  | nil => simp
  | cons a rest ih =>
    rcases segsFrom_cons.mp h with ⟨ha, _, hrest⟩
    simp only [List.map_cons, List.pairwise_cons]
    constructor
    · intro b hb
      simp only [List.mem_map] at hb
      obtain ⟨fi, hmem, hfi⟩ := hb
      have h1 := segsFrom_offset_le hrest hmem
      have h2 := hpos a (List.mem_cons_self a rest)
      omega
    · exact ih hrest (fun fi hm => hpos fi (List.mem_cons_of_mem a hm))

/-! ### Page-size lemmas for C4 -/

theorem sbuf_sizes_min (p m t o : Nat) :
    process_raw_sbuf_sizes p m t o
      = (min (p + m) (t - o), min p (min (p + m) (t - o))) := by
  rw [process_raw_sbuf_sizes]
  have hc : (if t < o + (p + m) then t - o else p + m) = min (p + m) (t - o) := by
    split <;> omega
  rw [hc]
  have hu : (if p > min (p + m) (t - o) then min (p + m) (t - o) else p)
      = min p (min (p + m) (t - o)) := by
    split <;> omega
  rw [hu]

theorem ewf_sizes_eq_raw : process_ewf_sbuf_sizes = process_raw_sbuf_sizes := rfl

/-- C3: after `process_raw::open` on a multipart-named image whose
consecutively numbered siblings exist up to some N (with the next probe
missing), the segment table is exactly the primary followed by those
siblings in probe order with running start offsets (hence contiguous: no
gaps, no overlap, and strictly increasing start offsets when no part is
empty), and `raw_filesize` is the sum of the segment lengths. -/
theorem process_raw_open_invariant (fname : List Char) (primary : List Nat)
    (sibs : List (List Char × List Nat))
    (hmp : is_multipart_file fname = true) :
    (process_raw_open fname primary sibs).file_list
        = buildSegs 0 ((fname, primary) :: sibs)
    ∧ segTableWF (process_raw_open fname primary sibs).file_list = true
    ∧ (process_raw_open fname primary sibs).raw_filesize
        = totalSize (process_raw_open fname primary sibs).file_list
    ∧ ((∀ pd ∈ (fname, primary) :: sibs, pd.2.length ≠ 0) →
        ((process_raw_open fname primary sibs).file_list.map
          (fun fi => fi.offset)).Pairwise (· < ·)) := by
  have hopen : process_raw_open fname primary sibs
      = sibs.foldl (fun s pd => add_file s pd.1 pd.2) (add_file ⟨[], 0⟩ fname primary) := by
    rw [process_raw_open, if_pos hmp]
  obtain ⟨h1, h2⟩ := foldl_add_file sibs (add_file ⟨[], 0⟩ fname primary)
  have hbase : add_file ⟨[], 0⟩ fname primary
      = ⟨[⟨fname, 0, primary.length, primary⟩], primary.length⟩ := by
    simp [add_file]
  have hfl : (process_raw_open fname primary sibs).file_list
      = buildSegs 0 ((fname, primary) :: sibs) := by
    rw [hopen, h1, hbase]
    simp [buildSegs]
  have hwf : segTableWF (process_raw_open fname primary sibs).file_list = true := by
    rw [hfl, segTableWF]
    exact segsFrom_buildSegs 0 _
  refine ⟨hfl, hwf, ?_, ?_⟩
  · rw [hfl, totalSize_buildSegs, hopen, h2, hbase]
    simp
  · intro hpos
    refine segsFrom_offsets_increasing (s := 0) hwf ?_
    intro fi hm
    rw [hfl] at hm
    have hmem : ∀ (s : Nat) (ds : List (List Char × List Nat)) (fi : file_info),
        fi ∈ buildSegs s ds → ∃ pd ∈ ds, fi.length = pd.2.length := by
      intro s ds
      induction ds generalizing s with
      | nil => intro fi h; simp [buildSegs] at h
      | cons d rest ihr =>
        intro fj hj
        rcases List.mem_cons.mp hj with hj | hj
        · exact ⟨d, List.mem_cons_self d rest, by rw [hj]⟩
        · obtain ⟨pd, hpd, hlen⟩ := ihr _ fj hj
          exact ⟨pd, List.mem_cons_of_mem d hpd, hlen⟩
    obtain ⟨pd, hpd, hlen⟩ := hmem 0 _ fi hm
    rw [hlen]
    exact hpos pd hpd

/-- Witness for C3: `img.000` with 3 bytes and an existing `img.001` with 2
bytes yield exactly two segments at offsets 0 and 3 with total 5. -/
theorem process_raw_open_invariant_w :
    (process_raw_open demoOpenFname demoOpenPrimary demoOpenSibs).file_list
        = buildSegs 0 ((demoOpenFname, demoOpenPrimary) :: demoOpenSibs)
    ∧ segTableWF (process_raw_open demoOpenFname demoOpenPrimary demoOpenSibs).file_list = true
    ∧ (process_raw_open demoOpenFname demoOpenPrimary demoOpenSibs).raw_filesize
        = totalSize (process_raw_open demoOpenFname demoOpenPrimary demoOpenSibs).file_list
    ∧ ((process_raw_open demoOpenFname demoOpenPrimary demoOpenSibs).file_list.map
          (fun fi => fi.offset)).Pairwise (· < ·) := by
  have h := process_raw_open_invariant demoOpenFname demoOpenPrimary demoOpenSibs (by decide)
  exact ⟨h.1, h.2.1, h.2.2.1, h.2.2.2 (by decide)⟩

/-- C4: for any cursor offset below the image size, both byte-addressed
backends allocate a page of total length `min (pagesize+margin)
(total-offset)` and usable length `min pagesize count`; in particular at the
final page start (a multiple of `pagesize` whose page reaches the image
end), usable length is `total % pagesize`, or `pagesize` when `pagesize`
divides `total` — never more. -/
theorem sbuf_alloc_page_sizes (pagesize margin total offset k : Nat) :
    (offset < total →
      process_raw_sbuf_sizes pagesize margin total offset
          = (min (pagesize + margin) (total - offset),
             min pagesize (min (pagesize + margin) (total - offset)))
        ∧ process_ewf_sbuf_sizes pagesize margin total offset
          = (min (pagesize + margin) (total - offset),
             min pagesize (min (pagesize + margin) (total - offset))))
    ∧ (offset = pagesize * k → offset < total → total ≤ offset + pagesize →
        (process_raw_sbuf_sizes pagesize margin total offset).2
          = if total % pagesize = 0 then pagesize else total % pagesize) := by
  constructor
  · intro _
    rw [ewf_sizes_eq_raw]
    exact ⟨sbuf_sizes_min pagesize margin total offset,
      sbuf_sizes_min pagesize margin total offset⟩
  · intro hk h1 h2
    rw [sbuf_sizes_min]
    have hmod : total % pagesize = (total - offset) % pagesize := by
      conv_lhs => rw [show total = pagesize * k + (total - offset) by omega]
      rw [Nat.mul_add_mod]
    by_cases hd : total - offset = pagesize
    · rw [if_pos (by rw [hmod, hd, Nat.mod_self])]
      omega
    · have hlt : total - offset < pagesize := by omega
      have hm2 : total % pagesize = total - offset := by
        rw [hmod, Nat.mod_eq_of_lt hlt]
      rw [hm2, if_neg (by omega)]
      omega

/-- Witness for C4: image of 25 bytes, page size 10, margin 4, final page at
offset 20: the page has 5 total and 5 usable bytes, `25 % 10`. -/
theorem sbuf_alloc_page_sizes_w :
    process_raw_sbuf_sizes 10 4 25 20 = (5, 5)
    ∧ process_ewf_sbuf_sizes 10 4 25 20 = (5, 5)
    ∧ (process_raw_sbuf_sizes 10 4 25 20).2 = 25 % 10 := by
  have h := sbuf_alloc_page_sizes 10 4 25 20 2
  obtain ⟨hA, hB⟩ := h.1 (by decide)
  refine ⟨hA.trans (by decide), hB.trans (by decide), ?_⟩
  exact (h.2 (by decide) (by decide) (by decide)).trans (by decide)

/-! ### Cursor-iteration lemmas for C5 -/

theorem iterCursor_offset (p total : Nat) :
    ∀ k, (iterCursor p total k).raw_offset = min (k * p) total := by
  intro k
  induction k with
  | zero => simp [iterCursor, iterBegin]
  | succ k ih =>
    have hs : (k + 1) * p = k * p + p := by ring
    simp only [iterCursor, cursor_step, process_raw_increment_iterator]
    rw [ih, hs]
    split <;> omega

theorem iterCursor_eof (p total : Nat) :
    ∀ k, (iterCursor p total k).eof = decide (k ≠ 0 ∧ total ≤ k * p) := by
  intro k
  induction k with
  | zero => simp [iterCursor, iterBegin]
  | succ k ih =>
    have hstep : (iterCursor p total (k + 1)).eof
        = ((iterCursor p total k).eof
            || decide ((iterCursor p total (k + 1)).raw_offset = total)) := rfl
    rw [hstep, ih, iterCursor_offset, Bool.or_eq_decide, decide_eq_decide]
    have hs : (k + 1) * p = k * p + p := by ring
    rw [hs]
    omega

/-- C5: iterating a byte-addressed cursor from `begin()` adds `pagesize` to
the offset each step, clamped to `total_size`; offsets are strictly
increasing while the cursor is before the end; the `eof` flag starts false,
holds exactly when the offset has reached `total_size`, and transitions
false-to-true exactly once.  (`process_ewf::increment_iterator` is the same
update as `process_raw`'s; the AT-END flag transition is the spec's §4.5
state machine.) -/
theorem cursor_iteration (p total : Nat) (hp : 0 < p) (ht : 0 < total) :
    (∀ it, process_ewf_increment_iterator p total it
        = process_raw_increment_iterator p total it)
    ∧ (∀ k, (iterCursor p total k).raw_offset = min (k * p) total)
    ∧ (∀ j k, j < k → (iterCursor p total j).raw_offset < total →
        (iterCursor p total j).raw_offset < (iterCursor p total k).raw_offset)
    ∧ (iterCursor p total 0).eof = false
    ∧ (∀ k, (iterCursor p total k).eof = true ↔
        (k ≠ 0 ∧ (iterCursor p total k).raw_offset = total))
    ∧ (∃! k, (iterCursor p total k).eof = false
        ∧ (iterCursor p total (k + 1)).eof = true) := by
  refine ⟨fun it => rfl, iterCursor_offset p total, ?_, rfl, ?_, ?_⟩
  · intro j k hjk hlt
    rw [iterCursor_offset] at hlt ⊢
    rw [iterCursor_offset]
    have h1 : (j + 1) * p ≤ k * p := Nat.mul_le_mul_right p (by omega)
    have h2 : (j + 1) * p = j * p + p := by ring
    omega
  · intro k
    rw [iterCursor_eof, iterCursor_offset]
    simp only [decide_eq_true_eq]
    omega
  · refine ⟨(total - 1) / p, ⟨?_, ?_⟩, ?_⟩
    · rw [iterCursor_eof]
      simp only [decide_eq_false_iff_not]
      have hd := Nat.div_mul_le_self (total - 1) p
      omega
    · rw [iterCursor_eof]
      simp only [decide_eq_true_eq]
      have hd := Nat.lt_mul_div_succ (total - 1) hp
      rw [Nat.mul_comm] at hd
      exact ⟨Nat.succ_ne_zero _, Nat.le_of_pred_lt hd⟩
    · intro k hk
      obtain ⟨hk1, hk2⟩ := hk
      rw [iterCursor_eof] at hk1 hk2
      simp only [decide_eq_false_iff_not] at hk1
      simp only [decide_eq_true_eq] at hk2
      rcases Nat.eq_zero_or_pos k with hk0 | hkpos
      · subst hk0
        symm
        apply Nat.div_eq_of_lt
        omega
      · have hlow : k * p ≤ total - 1 := by omega
        have hhigh : total - 1 < (k + 1) * p := by omega
        exact (Nat.div_eq_of_lt_le hlow hhigh).symm

/-- Witness for C5 at page size 10 and image size 25. -/
theorem cursor_iteration_w :
    (∀ it, process_ewf_increment_iterator 10 25 it
        = process_raw_increment_iterator 10 25 it)
    ∧ (∀ k, (iterCursor 10 25 k).raw_offset = min (k * 10) 25)
    ∧ (∀ j k, j < k → (iterCursor 10 25 j).raw_offset < 25 →
        (iterCursor 10 25 j).raw_offset < (iterCursor 10 25 k).raw_offset)
    ∧ (iterCursor 10 25 0).eof = false
    ∧ (∀ k, (iterCursor 10 25 k).eof = true ↔
        (k ≠ 0 ∧ (iterCursor 10 25 k).raw_offset = 25))
    ∧ (∃! k, (iterCursor 10 25 k).eof = false
        ∧ (iterCursor 10 25 (k + 1)).eof = true) :=
  cursor_iteration 10 25 (by decide) (by decide)

/-! ### C6: seek_block -/

/-- C6 counterexample: with page size 10, image size 25 and block 3,
`process_raw::seek_block` sets the offset to 20, not to `3*10` clamped to
`[0, 25]` (which is 25): the claim as stated is false. -/
theorem seek_block_cex :
    ¬ ((process_raw_seek_block 10 25 3).2 = min (3 * 10) 25) := by decide

/-- C6 amended: `process_raw::seek_block` clamps the block number to
`total / pagesize` when `block * pagesize` would start past the image, sets
the offset to the clamped block times `pagesize` (always `≤ total`, though
not in general `n * pagesize` clamped to `[0, total]`), and returns the
clamped block; `process_ewf::seek_block` performs no clamping: it sets the
offset to `pagesize * block` and returns `block` unchanged. -/
theorem seek_block_amended (pagesize total block : Nat) :
    process_raw_seek_block pagesize total block
        = (if block * pagesize > total then total / pagesize else block,
           (if block * pagesize > total then total / pagesize else block) * pagesize)
    ∧ (process_raw_seek_block pagesize total block).2 ≤ total
    ∧ process_ewf_seek_block pagesize block = (block, pagesize * block) := by
  refine ⟨rfl, ?_, rfl⟩
  rw [process_raw_seek_block]
  by_cases h : block * pagesize > total
  · rw [if_pos h]
    exact Nat.div_mul_le_self total pagesize
  · rw [if_neg h]
    omega

/-! ### C7: end-of-image versus a short final page -/

theorem pread_past_end {fl : List file_info} (hWF : segTableWF fl = true)
    {o : Nat} (h : totalSize fl ≤ o) (b : Nat) : pread fl b o = some (0, []) := by
  rw [pread, find_offset_none o hWF (by omega)]

/-- C7: on both byte-addressed backends, requesting a page where zero bytes
are available (cursor at/after the image end, the backend read returning 0)
makes `sbuf_alloc` signal end-of-image — the `eof` flag is set and no page
and no read error is produced — while a request at an offset strictly
before the end yields a valid non-empty page (possibly short). -/
theorem sbuf_alloc_end_of_image (pagesize margin : Nat) (fl : List file_info)
    (offZ offS : Nat) (ewfRead : Nat → Nat → Int)
    (hWF : segTableWF fl = true)
    (hZ : totalSize fl ≤ offZ)
    (hS : offS < totalSize fl)
    (hp : 0 < pagesize)
    (hEz : ewfRead 0 offZ = 0)
    (hEs : 0 ≤ ewfRead (min (pagesize + margin) (totalSize fl - offS)) offS) :
    process_raw_sbuf_alloc pagesize margin fl (totalSize fl) offZ
        = (SbufOutcome.endOfImage, true)
    ∧ process_ewf_sbuf_alloc pagesize margin (totalSize fl) ewfRead offZ
        = (SbufOutcome.endOfImage, true)
    ∧ (∃ c u, process_raw_sbuf_alloc pagesize margin fl (totalSize fl) offS
        = (SbufOutcome.page c u, false) ∧ 0 < c)
    ∧ (∃ c u, process_ewf_sbuf_alloc pagesize margin (totalSize fl) ewfRead offS
        = (SbufOutcome.page c u, false) ∧ 0 < c) := by
  have hz0 : min (pagesize + margin) (totalSize fl - offZ) = 0 := by omega
  have hspos : 0 < min (pagesize + margin) (totalSize fl - offS) := by omega
  refine ⟨?_, ?_, ?_, ?_⟩
  · rw [process_raw_sbuf_alloc, sbuf_sizes_min]
    rw [pread_past_end hWF hZ]
    rfl
  · rw [process_ewf_sbuf_alloc, ewf_sizes_eq_raw, sbuf_sizes_min]
    dsimp only
    rw [hz0, hEz]
    rw [if_neg (by omega), if_pos rfl]
  · rw [process_raw_sbuf_alloc, sbuf_sizes_min]
    dsimp only
    rw [pread_correct hWF (min (pagesize + margin) (totalSize fl - offS)) offS (by omega)]
    dsimp only
    rw [if_neg (by omega)]
    exact ⟨_, _, rfl, hspos⟩
  · rw [process_ewf_sbuf_alloc, ewf_sizes_eq_raw, sbuf_sizes_min]
    dsimp only
    rw [if_neg (by omega), if_neg (by omega)]
    exact ⟨_, _, rfl, hspos⟩

/-- Witness for C7: the 200-byte demo image with page size 10 and margin 4;
at offset 200 both backends signal end-of-image, at offset 150 both return
a 14-byte page. -/
theorem sbuf_alloc_end_of_image_w :
    process_raw_sbuf_alloc 10 4 demoFL (totalSize demoFL) 200
        = (SbufOutcome.endOfImage, true)
    ∧ process_ewf_sbuf_alloc 10 4 (totalSize demoFL) demoEwfRead 200
        = (SbufOutcome.endOfImage, true)
    ∧ (∃ c u, process_raw_sbuf_alloc 10 4 demoFL (totalSize demoFL) 150
        = (SbufOutcome.page c u, false) ∧ 0 < c)
    ∧ (∃ c u, process_ewf_sbuf_alloc 10 4 (totalSize demoFL) demoEwfRead 150
        = (SbufOutcome.page c u, false) ∧ 0 < c) :=
  sbuf_alloc_end_of_image 10 4 demoFL 200 150 demoEwfRead
    (by decide) (by decide) (by decide) (by decide) (by decide) (by decide)

/-! ### C8 and C10: factory dispatch -/

/-- C8: opening an existing directory with recursion permitted refuses with
`FoundDiskImage` (the spec's `FoundUnexpectedImageFile`) exactly when some
immediate child's extension is `.E01`, `.000` or `.001`; otherwise the
Directory backend is constructed. -/
theorem open_directory_scan (fn : List Char) (children : List (List Char))
    (opt_recurse have_libewf : Bool) (hrec : opt_recurse = true) :
    (children.any (fun p => decide (extensionOf p = strL ".E01")
        || decide (extensionOf p = strL ".000")
        || decide (extensionOf p = strL ".001")) = true →
      image_process_open fn true true children opt_recurse have_libewf
        = .error .FoundDiskImage)
    ∧ (children.any (fun p => decide (extensionOf p = strL ".E01")
        || decide (extensionOf p = strL ".000")
        || decide (extensionOf p = strL ".001")) = false →
      image_process_open fn true true children opt_recurse have_libewf
        = .ok .dir) := by
  subst hrec
  constructor <;> intro h <;> simp [image_process_open, h]

/-- Witness for C8: a directory holding `disk.E01` is refused; one holding
only `readme.txt` becomes the Directory backend. -/
theorem open_directory_scan_w :
    image_process_open (strL "evidence") true true [strL "disk.E01"] true false
        = .error .FoundDiskImage
    ∧ image_process_open (strL "evidence") true true [strL "readme.txt"] true false
        = .ok .dir :=
  ⟨(open_directory_scan (strL "evidence") [strL "disk.E01"] true false rfl).1 (by decide),
   (open_directory_scan (strL "evidence") [strL "readme.txt"] true false rfl).2 (by decide)⟩

theorem extensionOf_shape (s : List Char) :
    extensionOf s = [] ∨ ∃ t, extensionOf s = '.' :: t := by
  rw [extensionOf]
  split
  · left; rfl
  · dsimp only
    split
    · left; rfl
    · split
      · left; rfl
      · right; exact ⟨_, rfl⟩

theorem tolower_ext_ne (fn : List Char) :
    tolowerL (extensionOf fn) ≠ strL "e01" := by
  have hs : strL "e01" = ['e', '0', '1'] := rfl
  rcases extensionOf_shape fn with h | ⟨t, h⟩ <;> rw [h, hs]
  · simp [tolowerL]
  · rw [tolowerL, List.map_cons]
    intro hc
    exact absurd (List.cons_eq_cons.mp hc).1 (by decide)

/-- C10: an existing regular file whose name ends in lowercase `.e01` and
does not contain `.E01` is dispatched to the Segmented-Raw backend, never
the Container-Format backend: the lowercased extension (which keeps its
leading dot) is compared against `"e01"` without a dot, and the only other
test is a case-sensitive search for `".E01"`. -/
theorem open_lowercase_e01_raw (fn : List Char) (children : List (List Char))
    (opt_recurse have_libewf : Bool)
    (hend : fn_ends_with fn (strL ".e01") = true)
    (hnc : containsSub (strL ".E01") fn = false) :
    image_process_open fn true false children opt_recurse have_libewf
      = .ok .raw := by
  have h1 : decide (tolowerL (extensionOf fn) = strL "e01") = false := by
    simp [tolower_ext_ne fn]
  simp [image_process_open, h1, hnc]

/-- Witness for C10: `image.e01` opens as the raw backend even when the
container decoder is compiled in. -/
theorem open_lowercase_e01_raw_w :
    image_process_open (strL "image.e01") true false [] false true
      = .ok .raw :=
  open_lowercase_e01_raw (strL "image.e01") [] false true (by decide) (by decide)

end ImageProcess
